import Mathlib

/-!
Shallow embedding of the `wls` directory lister (WinCoreUtils).

The Go program is a linear pipeline: expand combined short flags, read the
directory, filter hidden entries, optionally add the synthetic `.` and `..`
entries, sort, then print either a long-format listing or a column-major
grid.  Strings are modelled as Lean `String` (lists of characters standing
for the Go byte strings, which agree on the ASCII data the program
manipulates); the OS calls (`os.ReadDir`, `os.Stat`, `GetFileAttributes`,
`term.GetSize`) are modelled as explicit inputs in a `Sys` record, and
`main` becomes a pure function from flags and `Sys` to an `Output` record
holding the exit code and both output streams.
-/

namespace Wls

/-- Model of one entry returned by `os.ReadDir`, together with the outcome of
the per-entry `GetFileAttributes` query made by `isHidden`: `none` models a
failed query (`UTF16PtrFromString` or `GetFileAttributes` returning an
error), `some attrs` a successful query returning the attribute bits. -/
structure DirEntry where
  name : String
  attrQuery : Option Nat
deriving DecidableEq, Repr

/-- `windows.FILE_ATTRIBUTE_HIDDEN`. -/
def FILE_ATTRIBUTE_HIDDEN : Nat := 2

/-- `isHidden` (part_000 lines 198-208): true when the attribute query
succeeds and the hidden bit is set; any query failure yields `false`. -/
def isHidden (e : DirEntry) : Bool :=
  match e.attrQuery with
  | none => false
  | some attrs => attrs &&& FILE_ATTRIBUTE_HIDDEN != 0

/-- Model of Go `strings.HasPrefix` on the character-list view of strings. -/
def strStartsWith (s p : String) : Bool :=
  s.toList.take p.toList.length == p.toList

/-- The filtering loop of `main` (lines 62-76): an entry is kept when `-a`
was given, or when its name does not begin with `.` and it does not carry
the hidden attribute. -/
def visibleEntry (allFlag : Bool) (e : DirEntry) : Bool :=
  allFlag || (!(strStartsWith e.name ".") && !(isHidden e))

/-- The name list built by the filtering loop of `main` (lines 62-76). -/
def filterNames (entries : List DirEntry) (allFlag : Bool) : List String :=
  (entries.filter (visibleEntry allFlag)).map DirEntry.name

/-- Lines 78-96 of `main`: with `-a`, append `.` and then `..` unless each
is already present (both presence checks are made against the original
list, and `.` is appended before `..`). -/
def addSpecialEntries (allFlag : Bool) (names : List String) : List String :=
  if allFlag then
    let hasDot := names.contains "."
    let hasDotDot := names.contains ".."
    let names1 := if hasDot then names else names ++ ["."]
    if hasDotDot then names1 else names1 ++ [".."]
  else names

/-- Ordinal (codepoint-wise) comparison of character lists; `charListLe a b`
models the Go byte-wise string comparison `a <= b` used by `sort.Strings`
(UTF-8 byte order and codepoint order coincide). -/
def charListLe : List Char → List Char → Bool
  | [], _ => true
  | _ :: _, [] => false
  | a :: as, b :: bs => if a < b then true else if b < a then false else charListLe as bs

/-- Ordinal string comparison, the order used by `sort.Strings`. -/
def strLe (a b : String) : Bool := charListLe a.toList b.toList

/-- Insert an element into an already sorted list, keeping it sorted. -/
def insertSorted (a : String) : List String → List String
  | [] => [a]
  | b :: rest => if strLe a b then a :: b :: rest else b :: insertSorted a rest

/-- Model of `sort.Strings` (line 98): ascending ordinal sort.  The sorted
rearrangement of a list of strings is unique, so any correct sorting
algorithm is an exact model; insertion sort is used so the definition
evaluates by kernel reduction. -/
def sortStrings : List String → List String
  | [] => []
  | a :: rest => insertSorted a (sortStrings rest)

/-- The Entry Collector: lines 56-98 of `main` after a successful
`os.ReadDir` (filter, synthesize `.`/`..` under `-a`, sort). -/
def collectNames (entries : List DirEntry) (allFlag : Bool) : List String :=
  sortStrings (addSpecialEntries allFlag (filterNames entries allFlag))

/-- `isExecutable` (lines 247-253). -/
def isExecutable (ext : String) : Bool :=
  ext == "exe" || ext == "bat" || ext == "cmd" || ext == "com" || ext == "ps1"

/-- `isArchive` (lines 261-267). -/
def isArchive (ext : String) : Bool :=
  ext == "zip" || ext == "tar" || ext == "gz" || ext == "tgz" || ext == "7z" || ext == "rar"

/-- `isImageOrVideo` (lines 275-281). -/
def isImageOrVideo (ext : String) : Bool :=
  ext == "jpg" || ext == "jpeg" || ext == "png" || ext == "gif" || ext == "bmp" ||
    ext == "webp" || ext == "mp4" || ext == "mkv" || ext == "mov" || ext == "avi"

/-- `isAudio` (lines 289-295). -/
def isAudio (ext : String) : Bool :=
  ext == "mp3" || ext == "wav" || ext == "flac" || ext == "aac" || ext == "ogg"

/-- The suffix after the final `.` of a name, or `[]` when the name has no
dot: `strings.TrimPrefix(filepath.Ext(name), ".")` for a bare entry name
(no path separators). -/
def extAfterDot (cs : List Char) : List Char :=
  if cs.contains '.' then (cs.reverse.takeWhile (fun c => c != '.')).reverse else []

/-- The lowercase extension used by `colorName` (line 225):
`strings.ToLower(strings.TrimPrefix(filepath.Ext(name), "."))`. -/
def extLower (name : String) : String :=
  String.mk ((extAfterDot name.toList).map Char.toLower)

/-- `colorWrap` (lines 304-306). -/
def colorWrap (code : Nat) (s : String) : String :=
  "\x1b[" ++ toString code ++ "m" ++ s ++ "\x1b[0m"

/-- `blue` (line 308). -/
def blue (s : String) : String := colorWrap 34 s

/-- `green` (line 309). -/
def green (s : String) : String := colorWrap 32 s

/-- `red` (line 310). -/
def red (s : String) : String := colorWrap 31 s

/-- `magenta` (line 311). -/
def magenta (s : String) : String := colorWrap 35 s

/-- `cyan` (line 312). -/
def cyan (s : String) : String := colorWrap 36 s

/-- Model of `os.FileInfo` as consumed by the program: directory bit, size,
and the already formatted permission and modification-time strings
(`fi.Mode().String()` and `fi.ModTime().Format("Jan _2 15:04")`). -/
structure FileInfo where
  isDir : Bool
  size : Int
  modeStr : String
  mtimeStr : String
deriving DecidableEq, Repr

/-- `colorName` (lines 218-239): `none` stands for the nil `os.FileInfo`
passed when a grid-mode stat failed. -/
def colorName (name : String) (fi : Option FileInfo) : String :=
  match fi with
  | none => name
  | some fi =>
    if fi.isDir then blue name
    else
      let ext := extLower name
      if isExecutable ext then green name
      else if isArchive ext then red name
      else if isImageOrVideo ext then magenta name
      else if isAudio ext then cyan name
      else name

/-- The display category determined by `colorName`'s cascade of tests. -/
inductive DisplayCategory where
  | Directory
  | Executable
  | Archive
  | Media
  | Audio
  | Plain
deriving DecidableEq, Repr

/-- The classifier implicit in `colorName`: directory status first, then the
lowercase extension against the four static sets, in order. -/
def classify (isDir : Bool) (name : String) : DisplayCategory :=
  if isDir then .Directory
  else
    let ext := extLower name
    if isExecutable ext then .Executable
    else if isArchive ext then .Archive
    else if isImageOrVideo ext then .Media
    else if isAudio ext then .Audio
    else .Plain

/-- The fixed decoration each category maps to in `colorName`. -/
def decorate (cat : DisplayCategory) (name : String) : String :=
  match cat with
  | .Directory => blue name
  | .Executable => green name
  | .Archive => red name
  | .Media => magenta name
  | .Audio => cyan name
  | .Plain => name

/-- `expandCombinedFlags` (lines 168-181): tokens not starting with `-`,
starting with `--`, or of length exactly 2 pass through; any other token is
replaced by one `-c` token per character after its first. -/
def expandCombinedFlags : List String → List String
  | [] => []
  | a :: rest =>
    if !(strStartsWith a "-") || strStartsWith a "--" || a.length == 2 then
      a :: expandCombinedFlags rest
    else
      ((a.toList.drop 1).map (fun c => String.mk ['-', c])) ++ expandCombinedFlags rest

/-- The `maxLen` loop of `main` (lines 124-129). -/
def maxLenOf (names : List String) : Nat :=
  names.foldl (fun maxLen n => if n.length > maxLen then n.length else maxLen) 0

/-- `colWidth := maxLen + 2` (line 134). -/
def colWidthOf (names : List String) : Nat := maxLenOf names + 2

/-- `cols := width / colWidth; if cols < 1 { cols = 1 }` (lines 135-138). -/
def colsOf (names : List String) (width : Nat) : Nat :=
  let cols := width / colWidthOf names
  if cols < 1 then 1 else cols

/-- `rows := (len(names) + cols - 1) / cols` (line 139). -/
def rowsOf (names : List String) (width : Nat) : Nat :=
  (names.length + colsOf names width - 1) / colsOf names width

/-- The entry shown in grid cell `(r, c)`: index `c*rows + r` when that is
in range (lines 143-147). -/
def cellEntry (names : List String) (rows r c : Nat) : Option String :=
  names[c * rows + r]?

/-- Column `c` of the grid: the in-range cells read downward. -/
def gridColumn (names : List String) (width c : Nat) : List String :=
  (List.range (rowsOf names width)).filterMap
    (fun r => cellEntry names (rowsOf names width) r c)

/-- All grid columns in order; traversing them left to right (each read
downward) is the column-major traversal of the grid. -/
def gridColumns (names : List String) (width : Nat) : List (List String) :=
  (List.range (colsOf names width)).map (fun c => gridColumn names width c)

/-- The run of spaces printed after a padded cell (lines 154-159):
`colWidth - len(name)` spaces, clamped at zero. -/
def padding (colWidth : Nat) (name : String) : String :=
  String.mk (List.replicate (colWidth - name.length) ' ')

/-- What the grid loop prints for cell `(r, c)` (lines 142-160): nothing
for an out-of-range index; otherwise the decorated name, padded unless the
cell is in the last column or its successor index in the row would be out
of range.  `stat` gives the per-name `os.Stat` outcome, whose error the
grid path discards (line 149). -/
def gridCellOutput (stat : String → Except String FileInfo) (names : List String)
    (colWidth cols rows r c : Nat) : Option String :=
  match cellEntry names rows r c with
  | none => none
  | some name =>
    if c = cols - 1 ∨ names.length ≤ c * rows + r + rows then
      some (colorName name (stat name).toOption)
    else
      some (colorName name (stat name).toOption ++ padding colWidth name)

/-- The grid-mode stdout lines (lines 123-163): nothing when `maxLen` is 0,
otherwise one line per row, each the concatenation of its cells' output. -/
def gridLines (stat : String → Except String FileInfo) (names : List String)
    (width : Nat) : List String :=
  if maxLenOf names = 0 then []
  else
    (List.range (rowsOf names width)).map (fun r =>
      String.join ((List.range (colsOf names width)).filterMap
        (fun c => gridCellOutput stat names (colWidthOf names) (colsOf names width)
          (rowsOf names width) r c)))

/-- Right-justification of the size to 8 positions (`%8d` in line 118). -/
def padLeft (w : Nat) (s : String) : String :=
  String.mk (List.replicate (w - s.length) ' ') ++ s

/-- One long-format line (line 118): permissions, size right-justified to 8,
modification time, decorated name. -/
def longLine (name : String) (fi : FileInfo) : String :=
  fi.modeStr ++ " " ++ padLeft 8 (toString fi.size) ++ " " ++ fi.mtimeStr ++ " " ++
    colorName name (some fi)

/-- The long-format loop (lines 107-121): returns the stdout lines and the
stderr lines.  A failed stat writes `error: <message>` to stderr and skips
only that entry. -/
def longLines (stat : String → Except String FileInfo) : List String → List String × List String
  | [] => ([], [])
  | n :: rest =>
    let out := longLines stat rest
    match stat n with
    | .error e => (out.1, ("error: " ++ e) :: out.2)
    | .ok fi => (longLine n fi :: out.1, out.2)

/-- The OS-dependent inputs of one invocation: the `os.ReadDir` outcome for
the target directory, the `os.Stat` outcome per entry name (the directory
prefix of the path is fixed for the invocation, so stat is keyed by name),
and the terminal width when `term.GetSize` succeeds. -/
structure Sys where
  readDirResult : Except String (List DirEntry)
  stat : String → Except String FileInfo
  termWidth : Option Nat

/-- Observable result of one invocation: exit code, stdout lines, stderr
lines. -/
structure Output where
  exitCode : Nat
  stdout : List String
  stderr : List String
deriving DecidableEq, Repr

/-- `main` (lines 39-164) after flag parsing: a failed `os.ReadDir` prints
`error: <message>` to stderr and exits with code 1 before any entry output;
otherwise the collected names are printed in long or grid mode and the exit
code is 0.  Width defaults to 80 unless the console reports a positive
width (lines 100-104). -/
def wlsMain (longFlag allFlag : Bool) (sys : Sys) : Output :=
  match sys.readDirResult with
  | .error e => ⟨1, [], ["error: " ++ e]⟩
  | .ok entries =>
    let names := collectNames entries allFlag
    let width := match sys.termWidth with
      | some w => if 0 < w then w else 80
      | none => 80
    if longFlag then
      let res := longLines sys.stat names
      ⟨0, res.1, res.2⟩
    else
      ⟨0, gridLines sys.stat names width, []⟩

/-! ### Properties of the ordinal order and of `sortStrings` -/

theorem charListLe_cons_iff {a b : Char} {as bs : List Char} :
    charListLe (a :: as) (b :: bs) = true ↔
      a < b ∨ (¬ a < b ∧ ¬ b < a ∧ charListLe as bs = true) := by
  simp only [charListLe]
  split
  · rename_i h; simp [h]
  · rename_i h
    split
    · rename_i h2; simp [h, h2]
    · rename_i h2; simp [h, h2]

theorem charListLe_trans : ∀ a b c : List Char,
    charListLe a b = true → charListLe b c = true → charListLe a c = true
  | [], _, _, _, _ => rfl
  | _ :: _, [], _, h1, _ => by simp [charListLe] at h1
  | _ :: _, _ :: _, [], _, h2 => by simp [charListLe] at h2
  | a :: as, b :: bs, c :: cs, h1, h2 => by
    rw [charListLe_cons_iff] at h1 h2 ⊢
    rcases h1 with h1 | ⟨hab1, hab2, h1⟩
    · rcases h2 with h2 | ⟨hbc1, hbc2, _⟩
      · exact Or.inl (lt_trans h1 h2)
      · have hbc : b = c := le_antisymm (not_lt.mp hbc2) (not_lt.mp hbc1)
        exact Or.inl (hbc ▸ h1)
    · have hab : a = b := le_antisymm (not_lt.mp hab2) (not_lt.mp hab1)
      subst hab
      exact h2.imp id (fun h => ⟨h.1, h.2.1, charListLe_trans as bs cs h1 h.2.2⟩)

theorem charListLe_total : ∀ a b : List Char, charListLe a b = true ∨ charListLe b a = true
  | [], _ => Or.inl rfl
  | _ :: _, [] => Or.inr rfl
  | a :: as, b :: bs => by
    rcases lt_trichotomy a b with h | h | h
    · exact Or.inl (charListLe_cons_iff.mpr (Or.inl h))
    · subst h
      rcases charListLe_total as bs with ih | ih
      · exact Or.inl (charListLe_cons_iff.mpr (Or.inr ⟨lt_irrefl a, lt_irrefl a, ih⟩))
      · exact Or.inr (charListLe_cons_iff.mpr (Or.inr ⟨lt_irrefl a, lt_irrefl a, ih⟩))
    · exact Or.inr (charListLe_cons_iff.mpr (Or.inl h))

theorem strLe_trans (a b c : String) (h1 : strLe a b = true) (h2 : strLe b c = true) :
    strLe a c = true :=
  charListLe_trans a.toList b.toList c.toList h1 h2

theorem strLe_total (a b : String) : strLe a b = true ∨ strLe b a = true :=
  charListLe_total a.toList b.toList

theorem perm_insertSorted (a : String) (l : List String) :
    List.Perm (insertSorted a l) (a :: l) := by
  induction l with
  | nil => exact List.Perm.refl _
  | cons b rest ih =>
    simp only [insertSorted]
    split
    · exact List.Perm.refl _
    · exact (ih.cons b).trans (List.Perm.swap a b rest)

theorem perm_sortStrings (l : List String) : List.Perm (sortStrings l) l := by
  induction l with
  | nil => exact List.Perm.refl _
  | cons a rest ih =>
    exact (perm_insertSorted a (sortStrings rest)).trans (ih.cons a)

theorem sorted_insertSorted (a : String) (l : List String)
    (h : l.Pairwise (fun x y => strLe x y = true)) :
    (insertSorted a l).Pairwise (fun x y => strLe x y = true) := by
  induction l with
  | nil => simp [insertSorted]
  | cons b rest ih =>
    rw [List.pairwise_cons] at h
    obtain ⟨hb, hrest⟩ := h
    simp only [insertSorted]
    split
    · rename_i hab
      rw [List.pairwise_cons]
      refine ⟨?_, List.pairwise_cons.mpr ⟨hb, hrest⟩⟩
      intro y hy
      rcases List.mem_cons.mp hy with rfl | hy
      · exact hab
      · exact strLe_trans a b y hab (hb y hy)
    · rename_i hab
      rw [List.pairwise_cons]
      refine ⟨?_, ih hrest⟩
      intro y hy
      rcases List.mem_cons.mp ((perm_insertSorted a rest).mem_iff.mp hy) with rfl | hy2
      · rcases strLe_total y b with h | h
        · exact absurd h hab
        · exact h
      · exact hb y hy2

theorem sorted_sortStrings (l : List String) :
    (sortStrings l).Pairwise (fun x y => strLe x y = true) := by
  induction l with
  | nil => simp [sortStrings]
  | cons a rest ih => exact sorted_insertSorted a (sortStrings rest) ih

/-! ### The Entry Collector -/

theorem contains_eq_decide_mem (l : List String) (a : String) :
    l.contains a = decide (a ∈ l) := by
  simp [List.contains]

theorem addSpecialEntries_eq (names : List String) :
    addSpecialEntries true names =
      names ++ (if ("." : String) ∈ names then [] else ["."]) ++
        (if (".." : String) ∈ names then [] else [".."]) := by
  by_cases hdot : ("." : String) ∈ names <;> by_cases hdd : (".." : String) ∈ names <;>
    simp [addSpecialEntries, contains_eq_decide_mem, hdot, hdd]

theorem mem_addSpecialEntries (allFlag : Bool) (names : List String) (n : String) :
    n ∈ addSpecialEntries allFlag names ↔
      n ∈ names ∨ (allFlag = true ∧ (n = "." ∨ n = "..")) := by
  cases allFlag with
  | false => simp [addSpecialEntries]
  | true =>
    rw [addSpecialEntries_eq]
    by_cases hdot : ("." : String) ∈ names <;> by_cases hdd : (".." : String) ∈ names
    · rw [if_pos hdot, if_pos hdd, List.append_nil, List.append_nil]
      constructor
      · exact fun h => Or.inl h
      · rintro (h | ⟨-, rfl | rfl⟩)
        exacts [h, hdot, hdd]
    · rw [if_pos hdot, if_neg hdd, List.append_nil, List.mem_append, List.mem_singleton]
      constructor
      · rintro (h | rfl)
        exacts [Or.inl h, Or.inr ⟨rfl, Or.inr rfl⟩]
      · rintro (h | ⟨-, rfl | rfl⟩)
        exacts [Or.inl h, Or.inl hdot, Or.inr rfl]
    · rw [if_neg hdot, if_pos hdd, List.append_nil, List.mem_append, List.mem_singleton]
      constructor
      · rintro (h | rfl)
        exacts [Or.inl h, Or.inr ⟨rfl, Or.inl rfl⟩]
      · rintro (h | ⟨-, rfl | rfl⟩)
        exacts [Or.inl h, Or.inr rfl, Or.inl hdd]
    · rw [if_neg hdot, if_neg hdd, List.append_assoc, List.mem_append, List.mem_append,
        List.mem_singleton, List.mem_singleton]
      constructor
      · rintro (h | rfl | rfl)
        exacts [Or.inl h, Or.inr ⟨rfl, Or.inl rfl⟩, Or.inr ⟨rfl, Or.inr rfl⟩]
      · rintro (h | ⟨-, rfl | rfl⟩)
        exacts [Or.inl h, Or.inr (Or.inl rfl), Or.inr (Or.inr rfl)]

theorem nodup_addSpecialEntries (allFlag : Bool) (names : List String)
    (h : names.Nodup) : (addSpecialEntries allFlag names).Nodup := by
  cases allFlag with
  | false => simpa [addSpecialEntries]
  | true =>
    rw [addSpecialEntries_eq]
    by_cases hdot : ("." : String) ∈ names <;> by_cases hdd : (".." : String) ∈ names
    · rw [if_pos hdot, if_pos hdd, List.append_nil, List.append_nil]; exact h
    · rw [if_pos hdot, if_neg hdd, List.append_nil]
      refine List.nodup_append.mpr ⟨h, by simp, ?_⟩
      intro a ha hb
      rw [List.mem_singleton] at hb
      subst hb; exact hdd ha
    · rw [if_neg hdot, if_pos hdd, List.append_nil]
      refine List.nodup_append.mpr ⟨h, by simp, ?_⟩
      intro a ha hb
      rw [List.mem_singleton] at hb
      subst hb; exact hdot ha
    · rw [if_neg hdot, if_neg hdd, List.append_assoc]
      refine List.nodup_append.mpr ⟨h, by decide, ?_⟩
      intro a ha hb
      rcases List.mem_append.mp hb with hb | hb <;> rw [List.mem_singleton] at hb <;>
        subst hb
      · exact hdot ha
      · exact hdd ha

theorem visibleEntry_eq_true_iff (allFlag : Bool) (e : DirEntry) :
    visibleEntry allFlag e = true ↔
      allFlag = true ∨ (strStartsWith e.name "." = false ∧ isHidden e = false) := by
  simp [visibleEntry]

theorem mem_filterNames (entries : List DirEntry) (allFlag : Bool) (n : String) :
    n ∈ filterNames entries allFlag ↔
      ∃ e ∈ entries, e.name = n ∧ visibleEntry allFlag e = true := by
  simp only [filterNames, List.mem_map, List.mem_filter]
  constructor
  · rintro ⟨e, ⟨he, hv⟩, hn⟩; exact ⟨e, he, hn, hv⟩
  · rintro ⟨e, he, hn, hv⟩; exact ⟨e, ⟨he, hv⟩, hn⟩

theorem nodup_filterNames (entries : List DirEntry) (allFlag : Bool)
    (h : (entries.map DirEntry.name).Nodup) : (filterNames entries allFlag).Nodup :=
  List.Nodup.sublist (List.Sublist.map DirEntry.name (List.filter_sublist entries)) h

/-- C1: for every directory and `showHidden` value, the collected name list
contains exactly the visible children (with attribute-query failures never
counting as hidden) plus, under `-a`, the synthetic `.` and `..`; it has no
duplicates and is sorted in ascending ordinal order. -/
theorem collectNames_spec (entries : List DirEntry) (allFlag : Bool)
    (hnd : (entries.map DirEntry.name).Nodup) :
    (∀ n : String, n ∈ collectNames entries allFlag ↔
        ((∃ e ∈ entries, e.name = n ∧
            (allFlag = true ∨ (strStartsWith n "." = false ∧ isHidden e = false))) ∨
          (allFlag = true ∧ (n = "." ∨ n = "..")))) ∧
    (collectNames entries allFlag).Nodup ∧
    (collectNames entries allFlag).Pairwise (fun a b => strLe a b = true) ∧
    (∀ e : DirEntry, e.attrQuery = none → isHidden e = false) := by
  refine ⟨?_, ?_, sorted_sortStrings _, ?_⟩
  · intro n
    rw [collectNames, (perm_sortStrings _).mem_iff, mem_addSpecialEntries]
    have hf : n ∈ filterNames entries allFlag ↔
        ∃ e ∈ entries, e.name = n ∧
          (allFlag = true ∨ (strStartsWith n "." = false ∧ isHidden e = false)) := by
      rw [mem_filterNames]
      constructor
      · rintro ⟨e, he, hn, hv⟩
        subst hn
        exact ⟨e, he, rfl, (visibleEntry_eq_true_iff allFlag e).mp hv⟩
      · rintro ⟨e, he, hn, hv⟩
        subst hn
        exact ⟨e, he, rfl, (visibleEntry_eq_true_iff allFlag e).mpr hv⟩
    rw [hf]
  · rw [collectNames]
    exact ((perm_sortStrings _).nodup_iff).mpr
      (nodup_addSpecialEntries _ _ (nodup_filterNames _ _ hnd))
  · intro e h
    simp [isHidden, h]

/-- Instantiation of `collectNames_spec` on a concrete directory. -/
theorem collectNames_spec_witness :
    (collectNames [⟨"b.txt", some 0⟩, ⟨"A.EXE", some 0⟩, ⟨".secret", some 0⟩,
        ⟨"hid", some 2⟩] false).Nodup ∧
    (collectNames [⟨"b.txt", some 0⟩, ⟨"A.EXE", some 0⟩, ⟨".secret", some 0⟩,
        ⟨"hid", some 2⟩] false).Pairwise (fun a b => strLe a b = true) :=
  ⟨(collectNames_spec [⟨"b.txt", some 0⟩, ⟨"A.EXE", some 0⟩, ⟨".secret", some 0⟩,
      ⟨"hid", some 2⟩] false (by decide)).2.1,
    (collectNames_spec [⟨"b.txt", some 0⟩, ⟨"A.EXE", some 0⟩, ⟨".secret", some 0⟩,
      ⟨"hid", some 2⟩] false (by decide)).2.2.1⟩

/-! ### The classifier -/

theorem char_toNat_ofNat (n : Nat) (h : n < 55296) : (Char.ofNat n).toNat = n := by
  have hv : n.isValidChar := Or.inl h
  simp [Char.ofNat, hv, Char.ofNatAux, Char.toNat, UInt32.toNat, BitVec.toNat_ofNatLt]

theorem toLower_eq_dot_iff (c : Char) : Char.toLower c = '.' ↔ c = '.' := by
  constructor
  · intro h
    simp only [Char.toLower] at h
    split at h
    · exfalso
      rename_i hr
      have h1 : (Char.ofNat (c.toNat + 32)).toNat = c.toNat + 32 :=
        char_toNat_ofNat _ (by omega)
      rw [h] at h1
      have : ('.' : Char).toNat = 46 := rfl
      omega
    · exact h
  · intro h; subst h; rfl

theorem toLower_toLower (c : Char) : Char.toLower (Char.toLower c) = Char.toLower c := by
  simp only [Char.toLower]
  split
  · rename_i hr
    have h1 : (Char.ofNat (c.toNat + 32)).toNat = c.toNat + 32 :=
      char_toNat_ofNat _ (by omega)
    rw [if_neg (by omega)]
  · rfl

theorem beq_dot_toLower (c : Char) : (Char.toLower c == '.') = (c == '.') := by
  by_cases h : c = '.'
  · subst h; rfl
  · have h2 : Char.toLower c ≠ '.' := fun hh => h ((toLower_eq_dot_iff c).mp hh)
    simp [beq_iff_eq, h, h2]

theorem beq_comm_char (a b : Char) : (a == b) = (b == a) := by
  by_cases h : a = b
  · subst h; rfl
  · simp [beq_iff_eq, h, Ne.symm h]

theorem contains_dot_map_toLower (cs : List Char) :
    (cs.map Char.toLower).contains '.' = cs.contains '.' := by
  induction cs with
  | nil => rfl
  | cons a as ih =>
    simp only [List.map_cons, List.contains_cons, ih]
    rw [beq_comm_char '.' (Char.toLower a), beq_dot_toLower, beq_comm_char a '.']

theorem takeWhile_ne_dot_map_toLower (cs : List Char) :
    (cs.map Char.toLower).takeWhile (fun c => c != '.') =
      (cs.takeWhile (fun c => c != '.')).map Char.toLower := by
  have hp : ((fun c : Char => c != '.') ∘ Char.toLower) = fun c : Char => c != '.' := by
    funext c
    show (!(Char.toLower c == '.')) = !(c == '.')
    rw [beq_dot_toLower]
  rw [List.takeWhile_map, hp]

theorem extAfterDot_map_toLower (cs : List Char) :
    extAfterDot (cs.map Char.toLower) = (extAfterDot cs).map Char.toLower := by
  unfold extAfterDot
  rw [contains_dot_map_toLower]
  by_cases h : cs.contains '.' = true
  · rw [if_pos h, if_pos h, ← List.map_reverse, takeWhile_ne_dot_map_toLower,
      ← List.map_reverse]
  · rw [if_neg h, if_neg h]; rfl

theorem map_toLower_idem (l : List Char) :
    (l.map Char.toLower).map Char.toLower = l.map Char.toLower := by
  rw [List.map_map]
  congr 1
  funext c
  exact toLower_toLower c

theorem extLower_eq_of_toLower_eq {a b : String}
    (h : a.toList.map Char.toLower = b.toList.map Char.toLower) :
    extLower a = extLower b := by
  unfold extLower
  congr 1
  calc (extAfterDot a.toList).map Char.toLower
      = (extAfterDot (a.toList.map Char.toLower)).map Char.toLower := by
        rw [extAfterDot_map_toLower, map_toLower_idem]
    _ = (extAfterDot (b.toList.map Char.toLower)).map Char.toLower := by rw [h]
    _ = (extAfterDot b.toList).map Char.toLower := by
        rw [extAfterDot_map_toLower, map_toLower_idem]

theorem classify_eq_of_extLower_eq (isDir : Bool) {a b : String}
    (h : extLower a = extLower b) : classify isDir a = classify isDir b := by
  simp only [classify, h]

/-- C2: the classifier is a total, pure function of the directory bit and
the lowercase extension; directory status overrides the name; `colorName`
renders exactly the classifier's category; the four extension sets are the
documented ones and pairwise disjoint; and classification is invariant
under changing the case of the name. -/
theorem classify_spec :
    (∀ name : String, classify true name = DisplayCategory.Directory) ∧
    (∀ (fi : FileInfo) (name : String),
      colorName name (some fi) = decorate (classify fi.isDir name) name) ∧
    (∀ ext : String,
      (isExecutable ext = true ↔ ext ∈ ["exe", "bat", "cmd", "com", "ps1"]) ∧
      (isArchive ext = true ↔ ext ∈ ["zip", "tar", "gz", "tgz", "7z", "rar"]) ∧
      (isImageOrVideo ext = true ↔
        ext ∈ ["jpg", "jpeg", "png", "gif", "bmp", "webp", "mp4", "mkv", "mov", "avi"]) ∧
      (isAudio ext = true ↔ ext ∈ ["mp3", "wav", "flac", "aac", "ogg"])) ∧
    (∀ ext : String,
      ¬(isExecutable ext = true ∧ isArchive ext = true) ∧
      ¬(isExecutable ext = true ∧ isImageOrVideo ext = true) ∧
      ¬(isExecutable ext = true ∧ isAudio ext = true) ∧
      ¬(isArchive ext = true ∧ isImageOrVideo ext = true) ∧
      ¬(isArchive ext = true ∧ isAudio ext = true) ∧
      ¬(isImageOrVideo ext = true ∧ isAudio ext = true)) ∧
    (∀ (isDir : Bool) (a b : String), extLower a = extLower b →
      classify isDir a = classify isDir b) ∧
    (∀ (isDir : Bool) (a b : String),
      a.toList.map Char.toLower = b.toList.map Char.toLower →
      classify isDir a = classify isDir b) := by
  refine ⟨?_, ?_, ?_, ?_, ?_, ?_⟩
  · intro name; simp [classify]
  · intro fi name
    simp only [colorName, classify]
    split_ifs <;> rfl
  · intro ext
    refine ⟨?_, ?_, ?_, ?_⟩ <;>
      simp [isExecutable, isArchive, isImageOrVideo, isAudio, beq_iff_eq, or_assoc]
  · intro ext
    refine ⟨?_, ?_, ?_, ?_, ?_, ?_⟩ <;> rintro ⟨h1, h2⟩
    · simp [isExecutable, beq_iff_eq, or_assoc] at h1
      rcases h1 with rfl | rfl | rfl | rfl | rfl <;> exact absurd h2 (by decide)
    · simp [isExecutable, beq_iff_eq, or_assoc] at h1
      rcases h1 with rfl | rfl | rfl | rfl | rfl <;> exact absurd h2 (by decide)
    · simp [isExecutable, beq_iff_eq, or_assoc] at h1
      rcases h1 with rfl | rfl | rfl | rfl | rfl <;> exact absurd h2 (by decide)
    · simp [isArchive, beq_iff_eq, or_assoc] at h1
      rcases h1 with rfl | rfl | rfl | rfl | rfl | rfl <;> exact absurd h2 (by decide)
    · simp [isArchive, beq_iff_eq, or_assoc] at h1
      rcases h1 with rfl | rfl | rfl | rfl | rfl | rfl <;> exact absurd h2 (by decide)
    · simp [isImageOrVideo, beq_iff_eq, or_assoc] at h1
      rcases h1 with rfl | rfl | rfl | rfl | rfl | rfl | rfl | rfl | rfl | rfl <;>
        exact absurd h2 (by decide)
  · exact fun isDir a b h => classify_eq_of_extLower_eq isDir h
  · exact fun isDir a b h => classify_eq_of_extLower_eq isDir (extLower_eq_of_toLower_eq h)

/-- Instantiation of `classify_spec`: `a.JPG` and `a.jpg` classify alike. -/
theorem classify_spec_witness : classify false "a.JPG" = classify false "a.jpg" :=
  classify_spec.2.2.2.2.2 false "a.JPG" "a.jpg" (by decide)

/-! ### The Flag Normalizer -/

theorem expandCombinedFlags_append (xs ys : List String) :
    expandCombinedFlags (xs ++ ys) = expandCombinedFlags xs ++ expandCombinedFlags ys := by
  induction xs with
  | nil => rfl
  | cons a rest ih =>
    simp only [List.cons_append, expandCombinedFlags, List.append_eq]
    split
    · rw [ih]; rfl
    · rw [ih, List.append_assoc]

theorem expandCombinedFlags_cons_pass (a : String) (rest : List String)
    (h : a.length = 2 ∨ strStartsWith a "--" = true ∨ strStartsWith a "-" = false) :
    expandCombinedFlags (a :: rest) = a :: expandCombinedFlags rest := by
  have hc : (!(strStartsWith a "-") || strStartsWith a "--" || a.length == 2) = true := by
    rcases h with h | h | h <;> simp [h]
  simp only [expandCombinedFlags]
  rw [if_pos hc]

theorem expandCombinedFlags_cons_split (a : String) (rest : List String)
    (h1 : strStartsWith a "-" = true) (h2 : strStartsWith a "--" = false)
    (h3 : 2 < a.length) :
    expandCombinedFlags (a :: rest) =
      (a.toList.drop 1).map (fun c => String.mk ['-', c]) ++ expandCombinedFlags rest := by
  have h4 : (a.length == 2) = false := by simp; omega
  simp only [expandCombinedFlags]
  rw [if_neg (by simp [h1, h2, h4])]

/-- C5: the Flag Normalizer splits every combined short-option token into
one re-dashed token per character after the dash, passes every
two-character, double-dash, or non-dash token through in place, maps the
empty list to the empty list, and never fails (it is a total function). -/
theorem expandCombinedFlags_spec :
    expandCombinedFlags [] = [] ∧
    (∀ (pre : List String) (a : String) (post : List String),
      ((strStartsWith a "-" = true ∧ strStartsWith a "--" = false ∧ 2 < a.length) →
        expandCombinedFlags (pre ++ a :: post) =
          expandCombinedFlags pre ++
            (a.toList.drop 1).map (fun c => String.mk ['-', c]) ++
            expandCombinedFlags post) ∧
      ((a.length = 2 ∨ strStartsWith a "--" = true ∨ strStartsWith a "-" = false) →
        expandCombinedFlags (pre ++ a :: post) =
          expandCombinedFlags pre ++ a :: expandCombinedFlags post)) := by
  refine ⟨rfl, fun pre a post => ⟨?_, ?_⟩⟩
  · rintro ⟨h1, h2, h3⟩
    rw [expandCombinedFlags_append, expandCombinedFlags_cons_split a post h1 h2 h3,
      List.append_assoc]
  · intro h
    rw [expandCombinedFlags_append, expandCombinedFlags_cons_pass a post h]

/-- Instantiation of `expandCombinedFlags_spec`: `-la` splits between `-x`
and `dir`. -/
theorem expandCombinedFlags_spec_witness :
    expandCombinedFlags (["-x"] ++ "-la" :: ["dir"]) =
      expandCombinedFlags ["-x"] ++
        ("-la".toList.drop 1).map (fun c => String.mk ['-', c]) ++
        expandCombinedFlags ["dir"] :=
  (expandCombinedFlags_spec.2 ["-x"] "-la" ["dir"]).1 (by decide)

theorem expandCombinedFlags_map_dash (l : List Char) :
    expandCombinedFlags (l.map (fun c => String.mk ['-', c])) =
      l.map (fun c => String.mk ['-', c]) := by
  induction l with
  | nil => rfl
  | cons c cs ih =>
    simp only [List.map_cons, expandCombinedFlags]
    rw [if_pos]
    · rw [ih]
    · have h2 : (String.mk ['-', c]).length = 2 := rfl
      simp [h2]

/-- C6: flag normalization is idempotent. -/
theorem expandCombinedFlags_idempotent (args : List String) :
    expandCombinedFlags (expandCombinedFlags args) = expandCombinedFlags args := by
  induction args with
  | nil => rfl
  | cons a rest ih =>
    by_cases hc : (!(strStartsWith a "-") || strStartsWith a "--" || a.length == 2) = true
    · have h1 : expandCombinedFlags (a :: rest) = a :: expandCombinedFlags rest := by
        simp only [expandCombinedFlags]; rw [if_pos hc]
      have h2 : expandCombinedFlags (a :: expandCombinedFlags rest) =
          a :: expandCombinedFlags (expandCombinedFlags rest) := by
        simp only [expandCombinedFlags]; rw [if_pos hc]
      rw [h1, h2, ih]
    · have h1 : expandCombinedFlags (a :: rest) =
          (a.toList.drop 1).map (fun c => String.mk ['-', c]) ++
            expandCombinedFlags rest := by
        simp only [expandCombinedFlags]; rw [if_neg hc]
      rw [h1, expandCombinedFlags_append, ih, expandCombinedFlags_map_dash]

/-- C9: a lone `-` token is dropped by the Flag Normalizer, so the
normalizer can shorten the argument list. -/
theorem dash_token_removed :
    (∀ pre post : List String,
      expandCombinedFlags (pre ++ "-" :: post) =
        expandCombinedFlags pre ++ expandCombinedFlags post) ∧
    expandCombinedFlags ["-"] = [] ∧
    (expandCombinedFlags ["-", "a"]).length < (["-", "a"] : List String).length := by
  refine ⟨?_, by decide, by decide⟩
  intro pre post
  rw [expandCombinedFlags_append]
  have h1 : expandCombinedFlags ("-" :: post) = expandCombinedFlags post := by
    simp only [expandCombinedFlags]
    rw [if_neg (by decide)]
    simp
  rw [h1]

/-! ### The Layout Engine -/

theorem one_le_colsOf (names : List String) (width : Nat) : 1 ≤ colsOf names width := by
  simp only [colsOf]
  split <;> omega

theorem foldlMax_le (l : List Nat) : ∀ acc : Nat,
    acc ≤ l.foldl (fun m x => if x > m then x else m) acc := by
  induction l with
  | nil => intro acc; exact le_refl acc
  | cons x xs ih =>
    intro acc
    refine le_trans ?_ (ih (if x > acc then x else acc))
    split <;> omega

theorem mem_le_foldlMax (l : List Nat) : ∀ acc x : Nat, x ∈ l →
    x ≤ l.foldl (fun m x => if x > m then x else m) acc := by
  induction l with
  | nil => intro _ x hx; cases hx
  | cons y ys ih =>
    intro acc x hx
    rcases List.mem_cons.mp hx with rfl | hx
    · rw [List.foldl_cons]
      refine le_trans ?_ (foldlMax_le ys _)
      split <;> omega
    · rw [List.foldl_cons]
      exact ih _ x hx

theorem foldlMax_mem (l : List Nat) : ∀ acc : Nat,
    l.foldl (fun m x => if x > m then x else m) acc = acc ∨
      l.foldl (fun m x => if x > m then x else m) acc ∈ l := by
  induction l with
  | nil => intro _; exact Or.inl rfl
  | cons x xs ih =>
    intro acc
    rw [List.foldl_cons]
    rcases ih (if x > acc then x else acc) with h | h
    · rw [h]
      split
      · exact Or.inr (List.mem_cons_self _ _)
      · exact Or.inl rfl
    · exact Or.inr (List.mem_cons_of_mem _ h)

theorem maxLenOf_eq_foldl (names : List String) :
    maxLenOf names =
      (names.map String.length).foldl (fun m x => if x > m then x else m) 0 := by
  rw [List.foldl_map]
  rfl

theorem maxLenOf_spec (names : List String) (hne : names ≠ []) :
    maxLenOf names ∈ names.map String.length ∧
      ∀ l ∈ names.map String.length, l ≤ maxLenOf names := by
  constructor
  · rw [maxLenOf_eq_foldl]
    rcases foldlMax_mem (names.map String.length) 0 with h | h
    · rcases names with _ | ⟨n, rest⟩
      · exact absurd rfl hne
      · have hm : n.length ∈ (n :: rest).map String.length :=
          List.mem_map_of_mem _ (List.mem_cons_self n rest)
        have hle := mem_le_foldlMax _ 0 n.length hm
        rw [h] at hle
        have hz : n.length = 0 := Nat.le_zero.mp hle
        rw [h, ← hz]
        exact hm
    · exact h
  · intro l hl
    rw [maxLenOf_eq_foldl]
    exact mem_le_foldlMax _ 0 l hl

theorem length_le_cols_mul_rows (names : List String) (width : Nat) :
    names.length ≤ colsOf names width * rowsOf names width := by
  have hc : 1 ≤ colsOf names width := one_le_colsOf names width
  unfold rowsOf
  have h := Nat.div_add_mod (names.length + colsOf names width - 1) (colsOf names width)
  have hm : (names.length + colsOf names width - 1) % colsOf names width <
      colsOf names width := Nat.mod_lt _ (by omega)
  generalize hcols : colsOf names width = cols at *
  generalize hr : (names.length + cols - 1) % cols = r at *
  generalize hq : (names.length + cols - 1) / cols = q at *
  generalize hX : cols * q = X at *
  omega

theorem rowsOf_min (names : List String) (width : Nat) (m : Nat)
    (h : names.length ≤ colsOf names width * m) : rowsOf names width ≤ m := by
  have hc : 1 ≤ colsOf names width := one_le_colsOf names width
  unfold rowsOf
  rw [Nat.div_le_iff_le_mul_add_pred (by omega)]
  generalize hcols : colsOf names width = cols at *
  generalize hX : cols * m = X at *
  omega

theorem cellEntry_eq_some_iff (names : List String) (rows r c : Nat) (s : String) :
    cellEntry names rows r c = some s ↔
      ∃ h : c * rows + r < names.length, names[c * rows + r] = s := by
  unfold cellEntry
  exact List.getElem?_eq_some_iff

theorem filterMap_getElem_range (l : List String) (k : Nat) (n : Nat) :
    (List.range n).filterMap (fun r => l[k + r]?) = (l.drop k).take n := by
  induction n with
  | zero => simp
  | succ n ih =>
    rw [List.range_succ, List.filterMap_append, ih, List.take_succ]
    congr 1
    simp only [List.filterMap_cons, List.filterMap_nil]
    rw [List.getElem?_drop]
    cases l[k + n]? <;> rfl

theorem gridColumn_eq (names : List String) (width c : Nat) :
    gridColumn names width c =
      (names.drop (c * rowsOf names width)).take (rowsOf names width) := by
  unfold gridColumn cellEntry
  exact filterMap_getElem_range names (c * rowsOf names width) (rowsOf names width)

theorem flatten_chunks (l : List String) (n : Nat) : ∀ k : Nat,
    ((List.range k).map (fun c => (l.drop (c * n)).take n)).flatten = l.take (k * n) := by
  intro k
  induction k with
  | zero => simp
  | succ k ih =>
    rw [List.range_succ, List.map_append, List.flatten_append, ih]
    simp only [List.map_cons, List.map_nil, List.flatten_cons, List.flatten_nil,
      List.append_nil]
    rw [← List.take_add]
    congr 1
    rw [Nat.succ_mul]

theorem gridColumns_flatten_eq (names : List String) (width : Nat) :
    (gridColumns names width).flatten =
      names.take (colsOf names width * rowsOf names width) := by
  unfold gridColumns
  simp only [gridColumn_eq]
  exact flatten_chunks names (rowsOf names width) (colsOf names width)

/-- C3: the grid geometry is the documented one: `colWidth = maxLen + 2`
with `maxLen` the longest name length, `cols = max 1 (width / colWidth)`,
`rows` the least row count covering all entries (the ceiling of
`count / cols`), cell `(r, c)` holds exactly the entry with column-major
index `c*rows + r` when in range and nothing otherwise, and an empty entry
set produces no output. -/
theorem gridGeometry_spec (names : List String) (width : Nat)
    (hne : names ≠ []) (_hw : 0 < width) :
    (maxLenOf names ∈ names.map String.length ∧
      ∀ l ∈ names.map String.length, l ≤ maxLenOf names) ∧
    colWidthOf names = maxLenOf names + 2 ∧
    colsOf names width = max 1 (width / colWidthOf names) ∧
    (names.length ≤ colsOf names width * rowsOf names width ∧
      ∀ m : Nat, names.length ≤ colsOf names width * m → rowsOf names width ≤ m) ∧
    (∀ r c : Nat, ∀ s : String,
      cellEntry names (rowsOf names width) r c = some s ↔
        ∃ h : c * rowsOf names width + r < names.length,
          names[c * rowsOf names width + r] = s) ∧
    (∀ (stat : String → Except String FileInfo) (w : Nat), gridLines stat [] w = []) := by
  refine ⟨maxLenOf_spec names hne, rfl, ?_,
    ⟨length_le_cols_mul_rows names width, rowsOf_min names width⟩,
    fun r c s => cellEntry_eq_some_iff names _ r c s, fun _ _ => rfl⟩
  simp only [colsOf]
  split <;> omega

/-- Instantiation of `gridGeometry_spec` on a concrete name list. -/
theorem gridGeometry_spec_witness :
    colsOf ["aa", "b", "cccc"] 10 = max 1 (10 / colWidthOf ["aa", "b", "cccc"]) :=
  (gridGeometry_spec ["aa", "b", "cccc"] 10 (by decide) (by decide)).2.2.1

/-- C4: for a non-empty name list the grid has at least one column and the
column-major traversal of its cells (down each column, columns left to
right) yields exactly the original sorted list, so every name sits in
exactly one cell. -/
theorem grid_roundTrip_spec (names : List String) (width : Nat) (_hne : names ≠ []) :
    1 ≤ colsOf names width ∧ (gridColumns names width).flatten = names := by
  refine ⟨one_le_colsOf names width, ?_⟩
  rw [gridColumns_flatten_eq]
  exact List.take_of_length_le (length_le_cols_mul_rows names width)

/-- Instantiation of `grid_roundTrip_spec` on a concrete name list. -/
theorem grid_roundTrip_spec_witness :
    1 ≤ colsOf ["a", "bb", "c"] 7 ∧
      (gridColumns ["a", "bb", "c"] 7).flatten = ["a", "bb", "c"] :=
  grid_roundTrip_spec ["a", "bb", "c"] 7 (by decide)

/-! ### Error handling -/

/-- C7: the program exits with code 1 exactly when the directory read
fails — writing only the error message, before any entry output — and with
code 0 on every successful read; an empty directory with no flags yields
no output lines and exit code 0. -/
theorem exitCode_spec :
    (∀ (longFlag allFlag : Bool) (e : String) (stat : String → Except String FileInfo)
        (tw : Option Nat),
      wlsMain longFlag allFlag ⟨Except.error e, stat, tw⟩ =
        ⟨1, [], ["error: " ++ e]⟩) ∧
    (∀ (longFlag allFlag : Bool) (entries : List DirEntry)
        (stat : String → Except String FileInfo) (tw : Option Nat),
      (wlsMain longFlag allFlag ⟨Except.ok entries, stat, tw⟩).exitCode = 0) ∧
    (∀ (stat : String → Except String FileInfo) (tw : Option Nat),
      wlsMain false false ⟨Except.ok [], stat, tw⟩ = ⟨0, [], []⟩) := by
  refine ⟨fun _ _ _ _ _ => rfl, ?_, ?_⟩
  · intro longFlag allFlag entries stat tw
    cases longFlag <;> rfl
  · intro stat tw
    rfl

theorem longLines_eq (stat : String → Except String FileInfo) (names : List String) :
    (longLines stat names).1 =
      names.filterMap (fun n => (stat n).toOption.map (fun fi => longLine n fi)) ∧
    (longLines stat names).2 =
      names.filterMap (fun n =>
        match stat n with
        | Except.error e => some ("error: " ++ e)
        | Except.ok _ => none) := by
  induction names with
  | nil => exact ⟨rfl, rfl⟩
  | cons n rest ih =>
    simp only [longLines, List.filterMap_cons]
    cases hstat : stat n with
    | error e => simp [Except.toOption, ih.1, ih.2]
    | ok fi => simp [Except.toOption, ih.1, ih.2]

/-- C8: in long-format mode a failing per-entry stat writes an error line
to the error stream and skips only that entry: stdout holds exactly the
long line of every entry whose stat succeeds, in collected (sorted) order;
stderr holds exactly one error line per failing entry, in order; and the
invocation still exits with code 0. -/
theorem longMode_skip_spec (allFlag : Bool) (entries : List DirEntry)
    (stat : String → Except String FileInfo) (tw : Option Nat) :
    (wlsMain true allFlag ⟨Except.ok entries, stat, tw⟩).stdout =
      (collectNames entries allFlag).filterMap
        (fun n => (stat n).toOption.map (fun fi => longLine n fi)) ∧
    (wlsMain true allFlag ⟨Except.ok entries, stat, tw⟩).stderr =
      (collectNames entries allFlag).filterMap
        (fun n =>
          match stat n with
          | Except.error e => some ("error: " ++ e)
          | Except.ok _ => none) ∧
    (wlsMain true allFlag ⟨Except.ok entries, stat, tw⟩).exitCode = 0 := by
  refine ⟨?_, ?_, rfl⟩
  · show (longLines stat (collectNames entries allFlag)).1 = _
    exact (longLines_eq stat _).1
  · show (longLines stat (collectNames entries allFlag)).2 = _
    exact (longLines_eq stat _).2

/-- C10: in grid mode a per-entry stat failure is silent: stderr is always
empty and the exit code 0, the decoration function returns the bare
undecorated name when no file info is available, and both the row count
and which cells produce output are independent of the stat outcomes. -/
theorem gridMode_statFailure_spec :
    (∀ name : String, colorName name none = name) ∧
    (∀ (allFlag : Bool) (entries : List DirEntry)
        (stat : String → Except String FileInfo) (tw : Option Nat),
      (wlsMain false allFlag ⟨Except.ok entries, stat, tw⟩).stderr = [] ∧
      (wlsMain false allFlag ⟨Except.ok entries, stat, tw⟩).exitCode = 0) ∧
    (∀ (stat stat2 : String → Except String FileInfo) (names : List String)
        (width : Nat),
      (gridLines stat names width).length = (gridLines stat2 names width).length) ∧
    (∀ (stat : String → Except String FileInfo) (names : List String)
        (colWidth cols rows r c : Nat),
      (gridCellOutput stat names colWidth cols rows r c).isSome =
        (cellEntry names rows r c).isSome) := by
  refine ⟨fun _ => rfl, fun _ _ _ _ => ⟨rfl, rfl⟩, ?_, ?_⟩
  · intro stat stat2 names width
    unfold gridLines
    split
    · rfl
    · simp
  · intro stat names colWidth cols rows r c
    cases h : cellEntry names rows r c with
    | none => simp only [gridCellOutput, h]
    | some name =>
      simp only [gridCellOutput, h]
      split <;> rfl

end Wls
